import Mathlib

/-!
# Verification of the join-pdf-go ordering and orchestration logic

Shallow embedding of the Go package `pkg/pdf` of the join-pdf-go service:
filename ordering, folder listing, upload naming, delete orchestration,
merge orchestration and the access-code store, together with theorems
settling the specification's claims about them.
-/

namespace JoinPdf

/-- One entry of a directory read (`os.ReadDir` result), as consumed by
`ListFilesWithExtension`: a name and whether the entry is a directory. -/
structure DirEntry where
  name : String
  isDir : Bool
deriving DecidableEq, Repr

/-- Go `strings.HasSuffix name ext` on the UTF-8 byte strings.  Byte-wise
suffix matching on valid UTF-8 coincides with character-wise suffix
matching because UTF-8 is self-synchronizing. -/
def goHasSuffix (s ext : String) : Bool :=
  ext.data.isSuffixOf s.data

/-- Go byte-wise string comparison `a < b`, character-wise; codepoint
order coincides with UTF-8 byte order. -/
def goLtChars : List Char → List Char → Bool
  | [], [] => false
  | [], _ :: _ => true
  | _ :: _, [] => false
  | a :: as, b :: bs =>
    if a.toNat < b.toNat then true
    else if b.toNat < a.toNat then false
    else goLtChars as bs

/-- Go string comparison `a < b` used by the comparator's fallback. -/
def goStrLt (a b : String) : Bool :=
  goLtChars a.data b.data

/-- All matches of the regular expression `[0-9] ` (a digit immediately
followed by a space) in a character list, leftmost and non-overlapping,
exactly as Go `regexp.FindAllString` produces them inside the
`sort.Slice` comparator of `ListFilesWithExtension`. -/
def findDS : List Char → List String
  | [] => []
  | [_] => []
  | c :: ' ' :: rest =>
    if c.isDigit then String.mk [c, ' '] :: findDS rest
    else findDS (' ' :: rest)
  | _ :: d :: rest => findDS (d :: rest)

/-- The digit-string value check of Go `strconv.Atoi`: every character
must be an ASCII digit and the list must be non-empty. -/
def parseDigits (l : List Char) : Option Nat :=
  if l = [] then none
  else if l.all Char.isDigit then
    some (l.foldl (fun a c => a * 10 + (c.toNat - 48)) 0)
  else none

/-- Go `strconv.Atoi`: optional sign, then a non-empty run of digits and
nothing else, with the 64-bit overflow bounds of Go's `int`. -/
def goAtoi (s : String) : Option Int :=
  match s.data with
  | [] => none
  | c :: rest =>
    if c = '+' then
      (parseDigits rest).bind fun n => if n < 2 ^ 63 then some (Int.ofNat n) else none
    else if c = '-' then
      (parseDigits rest).bind fun n => if n ≤ 2 ^ 63 then some (-(Int.ofNat n)) else none
    else
      (parseDigits (c :: rest)).bind fun n => if n < 2 ^ 63 then some (Int.ofNat n) else none

/-- The comparator passed to `sort.Slice` in `ListFilesWithExtension`:
find all `[0-9] ` matches in both names; if either has none, fall back to
Go string `<`; otherwise `Atoi` the first match of each, falling back to
string `<` if either conversion errors, and compare the integers. -/
def cmpLess (a b : String) : Bool :=
  match findDS a.data, findDS b.data with
  | f1 :: _, f2 :: _ =>
    match goAtoi f1, goAtoi f2 with
    | some n1, some n2 => decide (n1 < n2)
    | _, _ => goStrLt a b
  | _, _ => goStrLt a b

/-- Insertion of one name into a list sorted by `cmpLess`. -/
def insertFile (x : String) : List String → List String
  | [] => [x]
  | y :: ys => if cmpLess x y then x :: y :: ys else y :: insertFile x ys

/-- The `sort.Slice` call of `ListFilesWithExtension`, modelled as an
insertion sort by `cmpLess`.  Go's sort is unstable, but `cmpLess` is
extensionally the strict total order `goStrLt` (see `cmpLess_eq_goStrLt`),
so the sorted result is unique and independent of the algorithm. -/
def sortFiles : List String → List String
  | [] => []
  | x :: xs => insertFile x (sortFiles xs)

/-- `ListFilesWithExtension dir ext`: read the directory (an injected
`osReadDir`, `none` modelling a read error), keep the names of non-directory
entries whose name ends with `ext`, and sort them with `cmpLess`. -/
def ListFilesWithExtension (readDir : String → Option (List DirEntry))
    (dir ext : String) : Option (List String) :=
  match readDir dir with
  | none => none
  | some entries =>
    some (sortFiles ((entries.filter fun e => !e.isDir && goHasSuffix e.name ext).map DirEntry.name))

/-- Plain lexicographic comparison of the full filename strings, written
from the spec's words using Lean's standard lexicographic string order,
to be compared with the comparator embedded from the source. -/
def specLexLt (a b : String) : Bool :=
  decide (a < b)

/-- The first maximal run of ASCII digits in a character list, the spec's
notion of the extracted digit run. -/
def firstRunAux : List Char → Option (List Char)
  | [] => none
  | c :: cs => if c.isDigit then some (c :: cs.takeWhile Char.isDigit) else firstRunAux cs

/-- The integer key the spec's Filename Ordering extracts from a name:
the first maximal digit run parsed by `Atoi`; `none` when the name has no
digit run or the parse fails. -/
def specKey (s : String) : Option Int :=
  (firstRunAux s.data).bind fun r => goAtoi (String.mk r)

/-! ## Path joining (`path/filepath.Join` and `Clean`, Unix rules) -/

/-- Split a character list at every `'/'`. -/
def splitSlash : List Char → List (List Char)
  | [] => [[]]
  | c :: cs =>
    if c = '/' then [] :: splitSlash cs
    else
      match splitSlash cs with
      | [] => [[c]]
      | p :: ps => (c :: p) :: ps

/-- Join path components with `'/'`. -/
def joinSlash : List (List Char) → List Char
  | [] => []
  | [c] => c
  | c :: c2 :: cs => c ++ '/' :: joinSlash (c2 :: cs)

/-- Resolution of one `".."` component against the accumulated (reversed)
output of `Clean`: at the root of a rooted path it is dropped, at the start
of a relative path it is kept, after a kept `".."` it accumulates, and
otherwise it pops the previous component. -/
def dotdot (rooted : Bool) : List (List Char) → List (List Char)
  | [] => if rooted then [] else [['.', '.']]
  | a :: as => if a = ['.', '.'] then ['.', '.'] :: a :: as else as

/-- The component pass of Go `filepath.Clean`: drop empty and `"."`
components, resolve `".."` with `dotdot` (`acc` holds the output
reversed), and keep everything else. -/
def cleanRev (rooted : Bool) : List (List Char) → List (List Char) → List (List Char)
  | [], acc => acc
  | c :: cs, acc =>
    if c = [] ∨ c = ['.'] then cleanRev rooted cs acc
    else if c = ['.', '.'] then cleanRev rooted cs (dotdot rooted acc)
    else cleanRev rooted cs (c :: acc)

/-- Go `filepath.Clean` for Unix paths. -/
def cleanPath (s : String) : String :=
  match s.data with
  | [] => "."
  | c :: cs =>
    let rooted := decide (c = '/')
    let comps := (cleanRev rooted (splitSlash (c :: cs)) []).reverse
    let body := joinSlash comps
    if rooted then String.mk ('/' :: body)
    else if body = [] then "." else String.mk body

/-- Concatenate strings with `"/"` separators (the pre-`Clean` phase of
`filepath.Join`). -/
def joinStrings : List String → String
  | [] => ""
  | [s] => s
  | s :: s2 :: ss => s ++ "/" ++ joinStrings (s2 :: ss)

/-- Go `filepath.Join`: drop empty elements, join the rest with `"/"` and
`Clean` the result; all-empty input yields `""` uncleaned. -/
def goJoin (elems : List String) : String :=
  let ne := elems.filter (fun e => e ≠ "")
  if ne.isEmpty then "" else cleanPath (joinStrings ne)

/-! ## Merge orchestration (`joinPDFs`) -/

/-- The invocation of the opaque external merge operation
(`api.MergeCreateFile`): the ordered input paths and the output path. -/
structure MergeCall where
  inputs : List String
  output : String
deriving DecidableEq, Repr

/-- `joinPDFs path folder`: list the folder's PDFs in order; propagate a
listing error; fail when the list is empty; otherwise invoke the external
merge with the ordered absolute paths and the `Join(folderPath, "../",
folder+".pdf")` output path.  The returned `MergeCall` is the invocation
the code performs. -/
def joinPDFs (readDir : String → Option (List DirEntry)) (path folder : String) :
    Except String MergeCall :=
  match ListFilesWithExtension readDir (goJoin [path, folder]) ".pdf" with
  | none => Except.error "error al leer el directorio"
  | some files =>
    if files.isEmpty then
      Except.error "no se encontraron archivos PDF en la ruta proporcionada"
    else
      Except.ok
        { inputs := files.map fun f => goJoin [goJoin [path, folder], f]
          output := goJoin [goJoin [path, folder], "../", folder ++ ".pdf"] }

/-! ## Upload orchestration (`UploadHandler`) -/

/-- The final stored name of one uploaded file in `UploadHandler`:
`strings.Split(filename, "-")[0]` is the segment before the first `'-'`;
if `Atoi` fails on it the name becomes `fmt.Sprintf("%d-%s", i+1+counter,
filename)` for 0-based batch index `i`, otherwise it is kept unchanged. -/
def uploadName (counter i : Nat) (filename : String) : String :=
  let numStr := String.mk (filename.data.takeWhile fun c => c ≠ '-')
  match goAtoi numStr with
  | some _ => filename
  | none => toString (i + 1 + counter) ++ "-" ++ filename

/-- The `for i, fileHeader := range files` loop of `UploadHandler`,
restricted to the names it stores under. -/
def uploadLoop (counter : Nat) : Nat → List String → List String
  | _, [] => []
  | i, name :: rest => uploadName counter i name :: uploadLoop counter (i + 1) rest

/-- The stored names produced by one `UploadHandler` batch: the base
counter is the length of the folder's current `.pdf` listing; `none` when
that listing fails. -/
def uploadStoredNames (readDir : String → Option (List DirEntry))
    (folderPath : String) (incoming : List String) : Option (List String) :=
  match ListFilesWithExtension readDir folderPath ".pdf" with
  | none => none
  | some dest => some (uploadLoop dest.length 0 incoming)

/-! ## Delete orchestration -/

/-- Deletion of an explicit file list, in order, aborting at the first
missing name with its partial result. -/
def deleteList : List String → List String → Except String (List String)
  | contents, [] => Except.ok contents
  | contents, f :: fs =>
    if contents.contains f then deleteList (contents.erase f) fs
    else Except.error f

/-- Modelled from the spec: the repository's `DeleteFilesHandler` is not
among the provided sources (only its test `TestDeleteFilesHandler` and the
`DeleteFilesRequest` struct are); this models Section 4.4 Delete
Orchestration over the folder's file-name contents: an empty request list
deletes all files in the folder, a non-empty list deletes exactly the
named files in order, failing with `NotFoundError` at the first missing
name. -/
def DeleteFilesHandler (contents : List String) (files : List String) :
    Except String (List String) :=
  if files.isEmpty then Except.ok [] else deleteList contents files

/-! ## Access-code store -/

/-- UTF-8 encoding of one code point (Go `[]byte` string conversion). -/
def utf8Char (n : Nat) : List Nat :=
  if n < 0x80 then [n]
  else if n < 0x800 then [0xC0 + n / 64, 0x80 + n % 64]
  else if n < 0x10000 then [0xE0 + n / 4096, 0x80 + n / 64 % 64, 0x80 + n % 64]
  else [0xF0 + n / 262144, 0x80 + n / 4096 % 64, 0x80 + n / 64 % 64, 0x80 + n % 64]

/-- UTF-8 bytes of a string, as Go's `[]byte(s)`. -/
def utf8Bytes (s : String) : List Nat :=
  s.data.foldr (fun c acc => utf8Char c.toNat ++ acc) []

/-- The standard Base64 alphabet of `encoding/base64.StdEncoding`. -/
def b64Alphabet : List Char :=
  "ABCDEFGHIJKLMNOPQRSTUVWXYZabcdefghijklmnopqrstuvwxyz0123456789+/".data

/-- Character of one six-bit group. -/
def b64Char (n : Nat) : Char :=
  b64Alphabet.getD n 'A'

/-- Index of a character in the Base64 alphabet. -/
def b64Val (c : Char) : Option Nat :=
  b64Alphabet.findIdx? (fun d => d = c)

/-- `base64.StdEncoding.EncodeToString` over bytes, with `'='` padding. -/
def base64Encode : List Nat → List Char
  | [] => []
  | [a] => [b64Char (a / 4), b64Char (a % 4 * 16), '=', '=']
  | [a, b] => [b64Char (a / 4), b64Char (a % 4 * 16 + b / 16), b64Char (b % 16 * 4), '=']
  | a :: b :: c :: rest =>
    b64Char (a / 4) :: b64Char (a % 4 * 16 + b / 16) ::
      b64Char (b % 16 * 4 + c / 64) :: b64Char (c % 64) :: base64Encode rest

/-- Standard Base64 decoding, the inverse direction witnessing that the
encoding is reversible. -/
def base64Decode : List Char → Option (List Nat)
  | [] => some []
  | c1 :: c2 :: c3 :: c4 :: rest =>
    if c3 = '=' then
      if c4 = '=' ∧ rest = [] then
        match b64Val c1, b64Val c2 with
        | some v1, some v2 => if v2 % 16 = 0 then some [v1 * 4 + v2 / 16] else none
        | _, _ => none
      else none
    else if c4 = '=' then
      if rest = [] then
        match b64Val c1, b64Val c2, b64Val c3 with
        | some v1, some v2, some v3 =>
          if v3 % 4 = 0 then some [v1 * 4 + v2 / 16, v2 % 16 * 16 + v3 / 4] else none
        | _, _, _ => none
      else none
    else
      match b64Val c1, b64Val c2, b64Val c3, b64Val c4 with
      | some v1, some v2, some v3, some v4 =>
        (base64Decode rest).map fun bs =>
          (v1 * 4 + v2 / 16) :: (v2 % 16 * 16 + v3 / 4) :: (v3 % 4 * 64 + v4) :: bs
      | _, _, _, _ => none
  | _ => none

/-- The initial `validCodes` map: `{"alex": true}`. -/
def validCodesInit : List String := ["alex"]

/-- Membership check of `validCodes`, as `LoginHandler` and
`AuthMiddleware` perform it under the mutex. -/
def validateCode (st : List String) (code : String) : Bool :=
  st.contains code

/-- `GenerateCodeHandler`: Base64-encode the concatenation `name+date`,
register the code as valid, and return it together with the new store. -/
def generateCode (st : List String) (name date : String) : String × List String :=
  let code := String.mk (base64Encode (utf8Bytes (name ++ date)))
  (code, code :: st)

/-- The decision of `AuthMiddleware`: no cookie means rejection, otherwise
the cookie's code must be in `validCodes`. -/
def authAllowed (st : List String) (cookie : Option String) : Bool :=
  match cookie with
  | none => false
  | some code => validateCode st code

/-! ## Structural hypotheses on paths -/

/-- A plain path component: non-empty, no separator, not `"."`/`".."`. -/
def SimpleComp (c : List Char) : Prop :=
  c ≠ [] ∧ '/' ∉ c ∧ c ≠ ['.'] ∧ c ≠ ['.', '.']

instance (c : List Char) : Decidable (SimpleComp c) := by
  unfold SimpleComp
  infer_instance

/-- A path already in `Clean` form: an optional root followed by plain
components joined with `'/'`. -/
def CleanPathShape (p : String) : Prop :=
  ∃ rooted : Bool, ∃ comps : List (List Char), comps ≠ [] ∧ (∀ c ∈ comps, SimpleComp c) ∧
    p.data = (if rooted then ['/'] else []) ++ joinSlash comps

/-! ## Helper lemmas: the comparator is extensionally lexicographic -/

theorem findDS_shape : ∀ l : List Char, ∀ s ∈ findDS l,
    ∃ c, c.isDigit = true ∧ s = String.mk [c, ' '] := by
  intro l
  induction l using findDS.induct with
  | case1 => intro s hs; simp [findDS] at hs
  | case2 => intro s hs; simp [findDS] at hs
  | case3 c rest hd ih =>
    intro s hs
    rw [findDS] at hs
    simp [hd] at hs
    rcases hs with h | h
    · exact ⟨c, hd, h⟩
    · exact ih s h
  | case4 c rest hd ih =>
    intro s hs
    rw [findDS] at hs
    simp [hd] at hs
    exact ih s hs
  | case5 c d rest hne ih =>
    intro s hs
    rw [findDS] at hs
    · exact ih s hs
    · exact hne

theorem goAtoi_digit_space (c : Char) (h : c.isDigit = true) :
    goAtoi (String.mk [c, ' ']) = none := by
  have hp : c ≠ '+' := by rintro rfl; simp [Char.isDigit] at h
  have hm : c ≠ '-' := by rintro rfl; simp [Char.isDigit] at h
  simp only [goAtoi, String.mk]
  simp [hp, hm, parseDigits, Char.isDigit]

theorem cmpLess_eq_goStrLt (a b : String) : cmpLess a b = goStrLt a b := by
  unfold cmpLess
  cases h1 : findDS a.data with
  | nil => rfl
  | cons f1 fs1 =>
    cases h2 : findDS b.data with
    | nil => rfl
    | cons f2 fs2 =>
      obtain ⟨c1, hc1, rfl⟩ := findDS_shape a.data f1 (by rw [h1]; exact List.mem_cons_self _ _)
      obtain ⟨c2, hc2, rfl⟩ := findDS_shape b.data f2 (by rw [h2]; exact List.mem_cons_self _ _)
      simp only [goAtoi_digit_space c1 hc1, goAtoi_digit_space c2 hc2]

theorem char_eq_of_toNat_eq {a b : Char} (h : a.toNat = b.toNat) : a = b :=
  Char.ext (UInt32.ext h)

theorem goLtChars_iff : ∀ l1 l2 : List Char, goLtChars l1 l2 = true ↔ l1 < l2 := by
  intro l1
  induction l1 with
  | nil =>
    intro l2
    cases l2 with
    | nil =>
      simp only [goLtChars, Bool.false_eq_true, false_iff]
      intro h; cases h
    | cons b bs =>
      simp only [goLtChars, true_iff]
      exact List.Lex.nil
  | cons a as ih =>
    intro l2
    cases l2 with
    | nil =>
      simp only [goLtChars, Bool.false_eq_true, false_iff]
      intro h; cases h
    | cons b bs =>
      rw [goLtChars]
      by_cases h1 : a.toNat < b.toNat
      · rw [if_pos h1]
        simp only [true_iff]
        exact List.Lex.rel h1
      · by_cases h2 : b.toNat < a.toNat
        · rw [if_neg h1, if_pos h2]
          simp only [Bool.false_eq_true, false_iff]
          intro h
          cases h with
          | rel h => exact h1 h
          | cons h => omega
        · rw [if_neg h1, if_neg h2]
          have hab : a = b := char_eq_of_toNat_eq (by omega)
          subst hab
          rw [ih bs]
          constructor
          · intro h; exact List.Lex.cons h
          · intro h
            cases h with
            | rel h => exact absurd h (lt_irrefl a)
            | cons h => exact h

theorem goStrLt_eq_specLexLt (a b : String) : goStrLt a b = specLexLt a b := by
  unfold goStrLt specLexLt
  by_cases h : a < b
  · rw [decide_eq_true h]
    exact (goLtChars_iff a.data b.data).mpr (String.lt_iff_toList_lt.mp h)
  · rw [decide_eq_false h, ← Bool.not_eq_true]
    intro hc
    exact h (String.lt_iff_toList_lt.mpr ((goLtChars_iff a.data b.data).mp hc))

theorem insertFile_perm (x : String) (l : List String) :
    (insertFile x l).Perm (x :: l) := by
  induction l with
  | nil => exact List.Perm.refl _
  | cons y ys ih =>
    rw [insertFile]
    by_cases h : cmpLess x y
    · rw [if_pos h]
    · rw [if_neg h]
      exact (ih.cons y).trans (List.Perm.swap x y ys)

theorem sortFiles_perm (l : List String) : (sortFiles l).Perm l := by
  induction l with
  | nil => exact List.Perm.refl _
  | cons x xs ih =>
    rw [sortFiles]
    exact (insertFile_perm x (sortFiles xs)).trans (ih.cons x)

/-! ## Helper lemmas: path splitting, joining and cleaning -/

theorem splitSlash_ne_nil : ∀ l : List Char, splitSlash l ≠ [] := by
  intro l
  cases l with
  | nil => simp [splitSlash]
  | cons c cs =>
    rw [splitSlash]
    by_cases h : c = '/'
    · simp [h]
    · rw [if_neg h]
      cases splitSlash cs with
      | nil => simp
      | cons p ps => simp

theorem splitSlash_append : ∀ a b : List Char,
    splitSlash (a ++ '/' :: b) = splitSlash a ++ splitSlash b := by
  intro a b
  induction a with
  | nil => simp [splitSlash]
  | cons c cs ih =>
    rw [List.cons_append, splitSlash, splitSlash]
    by_cases h : c = '/'
    · simp [h, ih]
    · rw [if_neg h, if_neg h, ih]
      cases hs : splitSlash cs with
      | nil => exact absurd hs (splitSlash_ne_nil cs)
      | cons p ps => simp

theorem splitSlash_no_slash : ∀ a : List Char, '/' ∉ a → splitSlash a = [a] := by
  intro a
  induction a with
  | nil => intro _; rfl
  | cons c cs ih =>
    intro h
    have hc : c ≠ '/' := fun hc => h (hc ▸ List.mem_cons_self c cs)
    have hcs : '/' ∉ cs := fun hm => h (List.mem_cons_of_mem c hm)
    rw [splitSlash, if_neg hc, ih hcs]

theorem joinSlash_append_single : ∀ (l : List (List Char)) (x : List Char), l ≠ [] →
    joinSlash (l ++ [x]) = joinSlash l ++ '/' :: x := by
  intro l
  induction l with
  | nil => intro x h; exact absurd rfl h
  | cons c cs ih =>
    intro x _
    cases cs with
    | nil => simp [joinSlash]
    | cons c2 cs2 =>
      have h2 : joinSlash ((c :: c2 :: cs2) ++ [x]) = c ++ '/' :: joinSlash ((c2 :: cs2) ++ [x]) := rfl
      rw [h2, ih x (by simp), joinSlash]
      simp

theorem splitSlash_joinSlash : ∀ l : List (List Char), (∀ c ∈ l, '/' ∉ c) → l ≠ [] →
    splitSlash (joinSlash l) = l := by
  intro l
  induction l with
  | nil => intro _ h; exact absurd rfl h
  | cons c cs ih =>
    intro hm _
    cases cs with
    | nil => exact splitSlash_no_slash c (hm c (List.mem_cons_self c []))
    | cons c2 cs2 =>
      rw [joinSlash, splitSlash_append, splitSlash_no_slash c (hm c (List.mem_cons_self _ _)),
        ih (fun d hd => hm d (List.mem_cons_of_mem c hd)) (by simp)]
      rfl

theorem joinSlash_head_append : ∀ (c : List Char) (cs : List (List Char)),
    ∃ t, joinSlash (c :: cs) = c ++ t := by
  intro c cs
  cases cs with
  | nil => exact ⟨[], by simp [joinSlash]⟩
  | cons c2 cs2 => exact ⟨'/' :: joinSlash (c2 :: cs2), rfl⟩

theorem cleanRev_simple_prefix (rooted : Bool) :
    ∀ (l rest acc : List (List Char)), (∀ c ∈ l, SimpleComp c) →
      cleanRev rooted (l ++ rest) acc = cleanRev rooted rest (l.reverse ++ acc) := by
  intro l
  induction l with
  | nil => intro rest acc _; simp
  | cons c l' ih =>
    intro rest acc hs
    obtain ⟨h1, _, h3, h4⟩ := hs c (List.mem_cons_self _ _)
    rw [List.cons_append, cleanRev, if_neg (by simp [h1, h3]), if_neg h4,
      ih rest (c :: acc) (fun d hd => hs d (List.mem_cons_of_mem c hd))]
    simp

theorem cleanRev_skip_empty (rooted : Bool) (cs : List (List Char)) (acc : List (List Char)) :
    cleanRev rooted ([] :: cs) acc = cleanRev rooted cs acc := by
  rw [cleanRev, if_pos (Or.inl rfl)]

theorem cleanRev_pop (rooted : Bool) (cs : List (List Char)) (a : List Char)
    (as : List (List Char)) (ha : a ≠ ['.', '.']) :
    cleanRev rooted (['.', '.'] :: cs) (a :: as) = cleanRev rooted cs as := by
  rw [cleanRev, if_neg (by simp), if_pos rfl, dotdot, if_neg ha]

theorem cleanRev_simple_all (rooted : Bool) (l acc : List (List Char))
    (h : ∀ c ∈ l, SimpleComp c) : cleanRev rooted l acc = l.reverse ++ acc := by
  have h2 := cleanRev_simple_prefix rooted l [] acc h
  rw [List.append_nil] at h2
  rw [h2, cleanRev]

theorem cleanPath_data_eq (s : String) (c : Char) (cs : List Char) (h : s.data = c :: cs) :
    cleanPath s =
      (if c = '/' then
        String.mk ('/' :: joinSlash ((cleanRev true (splitSlash (c :: cs)) []).reverse))
      else
        (if joinSlash ((cleanRev false (splitSlash (c :: cs)) []).reverse) = [] then "."
         else String.mk (joinSlash ((cleanRev false (splitSlash (c :: cs)) []).reverse)))) := by
  simp only [cleanPath, h]
  by_cases hc : c = '/' <;> simp [hc]

theorem str_ne_empty {s : String} (h : s.data ≠ []) : s ≠ "" :=
  fun he => h (by rw [he])

theorem goJoin_pair (a b : String) (ha : a ≠ "") (hb : b ≠ "") :
    goJoin [a, b] = cleanPath (a ++ "/" ++ b) := by
  unfold goJoin
  simp [List.filter, ha, hb, joinStrings]

theorem goJoin_triple (a b c : String) (ha : a ≠ "") (hb : b ≠ "") (hc : c ≠ "") :
    goJoin [a, b, c] = cleanPath (a ++ "/" ++ (b ++ "/" ++ c)) := by
  unfold goJoin
  simp [List.filter, ha, hb, hc, joinStrings]

theorem joinSlash_head (c0 : List Char) (cs : List (List Char)) (h : c0 ≠ []) :
    joinSlash (c0 :: cs) ≠ [] := by
  obtain ⟨t, ht⟩ := joinSlash_head_append c0 cs
  rw [ht]
  intro hx
  exact h (List.append_eq_nil.mp hx).1

theorem goJoin_pair_shape (path folder : String) (hp : CleanPathShape path)
    (hf : SimpleComp folder.data) :
    ∃ rooted : Bool, ∃ comps : List (List Char), comps ≠ [] ∧ (∀ c ∈ comps, SimpleComp c) ∧
      path.data = (if rooted then ['/'] else []) ++ joinSlash comps ∧
      (goJoin [path, folder]).data =
        (if rooted then ['/'] else []) ++ joinSlash (comps ++ [folder.data]) := by
  obtain ⟨rooted, comps, hne, hsimple, hdata⟩ := hp
  have hcompsl : ∀ c ∈ comps, '/' ∉ c := fun c hc => (hsimple c hc).2.1
  have hjs : joinSlash comps ≠ [] := by
    cases comps with
    | nil => exact absurd rfl hne
    | cons c0 rest => exact joinSlash_head c0 rest ((hsimple c0 (List.mem_cons_self _ _)).1)
  have hpath_ne : path ≠ "" := by
    apply str_ne_empty
    rw [hdata]
    intro hx
    exact hjs (List.append_eq_nil.mp hx).2
  have hfolder_ne : folder ≠ "" := str_ne_empty hf.1
  rw [goJoin_pair path folder hpath_ne hfolder_ne]
  have hD : (path ++ "/" ++ folder).data = path.data ++ '/' :: folder.data := by
    rw [String.data_append, String.data_append]
    simp
  have hallsimple : ∀ c ∈ comps ++ [folder.data], SimpleComp c := by
    intro c hc
    rcases List.mem_append.mp hc with h | h
    · exact hsimple c h
    · rw [List.mem_singleton.mp h]
      exact hf
  refine ⟨rooted, comps, hne, hsimple, hdata, ?_⟩
  cases rooted with
  | true =>
    simp only [if_true] at hdata ⊢
    have hD2 : (path ++ "/" ++ folder).data = '/' :: (joinSlash comps ++ '/' :: folder.data) := by
      rw [hD, hdata]
      rfl
    rw [cleanPath_data_eq _ '/' _ hD2, if_pos rfl]
    have hsplit : splitSlash ('/' :: (joinSlash comps ++ '/' :: folder.data)) =
        [] :: (comps ++ [folder.data]) := by
      rw [splitSlash, if_pos rfl, splitSlash_append, splitSlash_joinSlash comps hcompsl hne,
        splitSlash_no_slash folder.data hf.2.1]
    rw [hsplit, cleanRev_skip_empty, cleanRev_simple_all true _ [] hallsimple]
    simp
  | false =>
    simp only [Bool.false_eq_true, if_false, List.nil_append] at hdata ⊢
    obtain ⟨c0, rest, rfl⟩ : ∃ c0 rest, comps = c0 :: rest := by
      cases comps with
      | nil => exact absurd rfl hne
      | cons c0 rest => exact ⟨c0, rest, rfl⟩
    have hc0 : SimpleComp c0 := hsimple c0 (List.mem_cons_self _ _)
    obtain ⟨ch, chs, rfl⟩ : ∃ ch chs, c0 = ch :: chs := by
      cases c0 with
      | nil => exact absurd rfl hc0.1
      | cons ch chs => exact ⟨ch, chs, rfl⟩
    have hch : ch ≠ '/' := fun h => hc0.2.1 (h ▸ List.mem_cons_self _ _)
    obtain ⟨t, ht⟩ := joinSlash_head_append (ch :: chs) rest
    have hD2 : (path ++ "/" ++ folder).data =
        ch :: (chs ++ (t ++ '/' :: folder.data)) := by
      rw [hD, hdata, ht]
      simp
    rw [cleanPath_data_eq _ ch _ hD2, if_neg hch]
    have hchcs : ch :: (chs ++ (t ++ '/' :: folder.data)) =
        joinSlash ((ch :: chs) :: rest) ++ '/' :: folder.data := by
      rw [ht]
      simp
    rw [hchcs]
    have hsplit : splitSlash (joinSlash ((ch :: chs) :: rest) ++ '/' :: folder.data) =
        ((ch :: chs) :: rest) ++ [folder.data] := by
      rw [splitSlash_append, splitSlash_joinSlash _ hcompsl hne,
        splitSlash_no_slash folder.data hf.2.1]
    rw [hsplit, cleanRev_simple_all false _ [] hallsimple]
    simp only [List.append_nil, List.reverse_reverse, List.cons_append]
    rw [if_neg (joinSlash_head (ch :: chs) (rest ++ [folder.data]) (by simp))]

theorem joinSlash_simple_ne_nil (l : List (List Char)) (hne : l ≠ [])
    (hs : ∀ c ∈ l, SimpleComp c) : joinSlash l ≠ [] := by
  cases l with
  | nil => exact absurd rfl hne
  | cons c0 rest => exact joinSlash_head c0 rest ((hs c0 (List.mem_cons_self _ _)).1)

theorem pdf_suffix_simple (folder : String) (hf : SimpleComp folder.data) :
    SimpleComp (folder ++ ".pdf").data := by
  have hdata : (folder ++ ".pdf").data = folder.data ++ ['.', 'p', 'd', 'f'] := by
    rw [String.data_append]
  rw [hdata]
  refine ⟨by simp, ?_, ?_, ?_⟩
  · intro hm
    rcases List.mem_append.mp hm with h | h
    · exact hf.2.1 h
    · simp at h
  · intro h
    have := congrArg List.length h
    simp at this
  · intro h
    have := congrArg List.length h
    simp at this

theorem goJoin_output_shape (fp folder : String) (rooted : Bool) (comps : List (List Char))
    (hne : comps ≠ []) (hsimple : ∀ c ∈ comps, SimpleComp c)
    (hfd : SimpleComp folder.data)
    (hfp : fp.data = (if rooted then ['/'] else []) ++ joinSlash (comps ++ [folder.data])) :
    (goJoin [fp, "../", folder ++ ".pdf"]).data =
      (if rooted then ['/'] else []) ++ joinSlash (comps ++ [(folder ++ ".pdf").data]) := by
  have hall : ∀ c ∈ comps ++ [folder.data], SimpleComp c := by
    intro c hc
    rcases List.mem_append.mp hc with h | h
    · exact hsimple c h
    · rw [List.mem_singleton.mp h]; exact hfd
  have hallsl : ∀ c ∈ comps ++ [folder.data], '/' ∉ c := fun c hc => (hall c hc).2.1
  have hane : comps ++ [folder.data] ≠ [] := by simp
  have hjs : joinSlash (comps ++ [folder.data]) ≠ [] :=
    joinSlash_simple_ne_nil _ hane hall
  have hfp_ne : fp ≠ "" := by
    apply str_ne_empty
    rw [hfp]
    intro hx
    exact hjs (List.append_eq_nil.mp hx).2
  have hpdf : SimpleComp (folder ++ ".pdf").data := pdf_suffix_simple folder hfd
  have hpdf_ne : folder ++ ".pdf" ≠ "" := str_ne_empty hpdf.1
  rw [goJoin_triple fp "../" (folder ++ ".pdf") hfp_ne (by decide) hpdf_ne]
  have hREST : ("../" ++ "/" ++ (folder ++ ".pdf")).data =
      ['.', '.'] ++ '/' :: ('/' :: (folder ++ ".pdf").data) := by
    rw [String.data_append, String.data_append]
    rfl
  have hsplitREST : splitSlash (['.', '.'] ++ '/' :: ('/' :: (folder ++ ".pdf").data)) =
      [['.', '.'], [], (folder ++ ".pdf").data] := by
    rw [splitSlash_append, splitSlash_no_slash ['.', '.'] (by decide), splitSlash,
      if_pos rfl, splitSlash_no_slash _ hpdf.2.1]
    rfl
  have hD : (fp ++ "/" ++ ("../" ++ "/" ++ (folder ++ ".pdf"))).data =
      fp.data ++ '/' :: (['.', '.'] ++ '/' :: ('/' :: (folder ++ ".pdf").data)) := by
    rw [String.data_append, String.data_append, hREST]
    simp
  cases rooted with
  | true =>
    simp only [if_true] at hfp ⊢
    have hD2 : (fp ++ "/" ++ ("../" ++ "/" ++ (folder ++ ".pdf"))).data =
        '/' :: (joinSlash (comps ++ [folder.data]) ++
          '/' :: (['.', '.'] ++ '/' :: ('/' :: (folder ++ ".pdf").data))) := by
      rw [hD, hfp]
      rfl
    rw [cleanPath_data_eq _ '/' _ hD2, if_pos rfl]
    have hsplit : splitSlash ('/' :: (joinSlash (comps ++ [folder.data]) ++
        '/' :: (['.', '.'] ++ '/' :: ('/' :: (folder ++ ".pdf").data)))) =
        [] :: ((comps ++ [folder.data]) ++ [['.', '.'], [], (folder ++ ".pdf").data]) := by
      rw [splitSlash, if_pos rfl, splitSlash_append,
        splitSlash_joinSlash _ hallsl hane, hsplitREST]
    rw [hsplit, cleanRev_skip_empty, cleanRev_simple_prefix true _ _ [] hall,
      List.append_nil, List.reverse_append]
    simp only [List.reverse_singleton, List.singleton_append]
    rw [cleanRev_pop true _ _ _ hfd.2.2.2, cleanRev_skip_empty,
      cleanRev_simple_all true [(folder ++ ".pdf").data] _
        (by intro c hc; rw [List.mem_singleton.mp hc]; exact hpdf)]
    simp
  | false =>
    simp only [Bool.false_eq_true, if_false, List.nil_append] at hfp ⊢
    obtain ⟨c0, rest, rfl⟩ : ∃ c0 rest, comps = c0 :: rest := by
      cases comps with
      | nil => exact absurd rfl hne
      | cons c0 rest => exact ⟨c0, rest, rfl⟩
    have hc0 : SimpleComp c0 := hsimple c0 (List.mem_cons_self _ _)
    obtain ⟨ch, chs, rfl⟩ : ∃ ch chs, c0 = ch :: chs := by
      cases c0 with
      | nil => exact absurd rfl hc0.1
      | cons ch chs => exact ⟨ch, chs, rfl⟩
    have hch : ch ≠ '/' := fun h => hc0.2.1 (h ▸ List.mem_cons_self _ _)
    have hconsapp : (ch :: chs) :: rest ++ [folder.data] =
        (ch :: chs) :: (rest ++ [folder.data]) := rfl
    obtain ⟨t, ht⟩ := joinSlash_head_append (ch :: chs) (rest ++ [folder.data])
    have hD2 : (fp ++ "/" ++ ("../" ++ "/" ++ (folder ++ ".pdf"))).data =
        ch :: (chs ++ (t ++ '/' :: (['.', '.'] ++ '/' :: ('/' :: (folder ++ ".pdf").data)))) := by
      rw [hD, hfp, hconsapp, ht]
      simp
    rw [cleanPath_data_eq _ ch _ hD2, if_neg hch]
    have hchcs : ch :: (chs ++ (t ++ '/' :: (['.', '.'] ++ '/' :: ('/' :: (folder ++ ".pdf").data)))) =
        joinSlash ((ch :: chs) :: (rest ++ [folder.data])) ++
          '/' :: (['.', '.'] ++ '/' :: ('/' :: (folder ++ ".pdf").data)) := by
      rw [ht]
      simp
    rw [hchcs]
    have hsplit : splitSlash (joinSlash ((ch :: chs) :: (rest ++ [folder.data])) ++
        '/' :: (['.', '.'] ++ '/' :: ('/' :: (folder ++ ".pdf").data))) =
        ((ch :: chs) :: (rest ++ [folder.data])) ++ [['.', '.'], [], (folder ++ ".pdf").data] := by
      rw [splitSlash_append, splitSlash_joinSlash _ (hconsapp ▸ hallsl) (by simp), hsplitREST]
    rw [hsplit, cleanRev_simple_prefix false _ _ [] (hconsapp ▸ hall),
      List.append_nil, List.reverse_cons]
    rw [show ((rest ++ [folder.data]).reverse ++ [ch :: chs]) =
        (folder.data :: (rest.reverse ++ [ch :: chs])) from by simp]
    rw [cleanRev_pop false _ _ _ hfd.2.2.2, cleanRev_skip_empty,
      cleanRev_simple_all false [(folder ++ ".pdf").data] _
        (by intro c hc; rw [List.mem_singleton.mp hc]; exact hpdf)]
    simp only [List.reverse_cons, List.reverse_append, List.reverse_reverse,
      List.reverse_singleton, List.singleton_append, List.append_assoc, List.cons_append,
      List.nil_append, List.reverse_nil]
    rw [if_neg (joinSlash_head (ch :: chs) (rest ++ [(folder ++ ".pdf").data]) (by simp))]

theorem output_is_sibling (path folder : String) (hp : CleanPathShape path)
    (hf : SimpleComp folder.data) :
    goJoin [goJoin [path, folder], "../", folder ++ ".pdf"] =
      path ++ "/" ++ folder ++ ".pdf" := by
  obtain ⟨rooted, comps, hne, hsimple, hpdata, hfpdata⟩ := goJoin_pair_shape path folder hp hf
  apply String.ext
  rw [goJoin_output_shape (goJoin [path, folder]) folder rooted comps hne hsimple hf hfpdata,
    joinSlash_append_single _ _ hne, String.data_append, String.data_append,
    String.data_append, ← List.append_assoc, ← hpdata, String.data_append]
  simp

/-! ## Helper lemmas: the upload loop -/

theorem uploadLoop_length : ∀ (incoming : List String) (c j : Nat),
    (uploadLoop c j incoming).length = incoming.length := by
  intro incoming
  induction incoming with
  | nil => intro c j; rfl
  | cons name rest ih =>
    intro c j
    rw [uploadLoop, List.length_cons, List.length_cons, ih]

theorem uploadLoop_get : ∀ (incoming : List String) (c j i : Nat),
    (uploadLoop c j incoming).get? i =
      (incoming.get? i).map fun name => uploadName c (j + i) name := by
  intro incoming
  induction incoming with
  | nil => intro c j i; rfl
  | cons name rest ih =>
    intro c j i
    cases i with
    | zero => rfl
    | succ i' =>
      rw [uploadLoop]
      show (uploadLoop c (j + 1) rest).get? i' = _
      rw [ih c (j + 1) i']
      show _ = (rest.get? i').map fun name => uploadName c (j + (i' + 1)) name
      have h2 : j + 1 + i' = j + (i' + 1) := by omega
      rw [h2]

/-! ## Helper lemmas: Base64 and UTF-8 -/

theorem b64Val_b64Char : ∀ n < 64, b64Val (b64Char n) = some n := by decide

theorem b64Char_ne_eq : ∀ n < 64, b64Char n ≠ '=' := by decide

theorem base64_roundtrip : ∀ l : List Nat, (∀ x ∈ l, x < 256) →
    base64Decode (base64Encode l) = some l := by
  intro l
  induction l using base64Encode.induct with
  | case1 => intro _; rfl
  | case2 a =>
    intro h
    have ha : a < 256 := h a (List.mem_singleton.mpr rfl)
    rw [base64Encode, base64Decode, if_pos rfl, if_pos ⟨rfl, rfl⟩,
      b64Val_b64Char (a / 4) (by omega), b64Val_b64Char (a % 4 * 16) (by omega)]
    simp only
    rw [if_pos (by omega)]
    congr 1
    congr 1
    omega
  | case3 a b =>
    intro h
    have ha : a < 256 := h a (by simp)
    have hb : b < 256 := h b (by simp)
    rw [base64Encode, base64Decode,
      if_neg (b64Char_ne_eq (b % 16 * 4) (by omega)), if_pos rfl, if_pos rfl,
      b64Val_b64Char (a / 4) (by omega), b64Val_b64Char (a % 4 * 16 + b / 16) (by omega),
      b64Val_b64Char (b % 16 * 4) (by omega)]
    simp only
    rw [if_pos (by omega)]
    congr 1
    congr 1
    · omega
    · congr 1
      omega
  | case4 a b c rest ih =>
    intro h
    have ha : a < 256 := h a (by simp)
    have hb : b < 256 := h b (by simp)
    have hc : c < 256 := h c (by simp)
    have hrest : ∀ x ∈ rest, x < 256 := fun x hx => h x (by simp [hx])
    rw [base64Encode, base64Decode,
      if_neg (b64Char_ne_eq (b % 16 * 4 + c / 64) (by omega)),
      if_neg (b64Char_ne_eq (c % 64) (by omega)),
      b64Val_b64Char (a / 4) (by omega), b64Val_b64Char (a % 4 * 16 + b / 16) (by omega),
      b64Val_b64Char (b % 16 * 4 + c / 64) (by omega), b64Val_b64Char (c % 64) (by omega)]
    simp only
    rw [ih hrest, Option.map_some']
    congr 1
    congr 1
    · omega
    · congr 1
      · omega
      · congr 1
        omega

theorem char_toNat_lt (c : Char) : c.toNat < 1114112 := by
  have h := c.valid
  unfold UInt32.isValidChar Nat.isValidChar at h
  rcases h with h | h
  · unfold Char.toNat
    omega
  · unfold Char.toNat
    omega

theorem utf8Char_lt (n : Nat) (hn : n < 1114112) : ∀ b ∈ utf8Char n, b < 256 := by
  intro b hb
  unfold utf8Char at hb
  by_cases h1 : n < 0x80
  · rw [if_pos h1] at hb
    simp at hb
    omega
  · rw [if_neg h1] at hb
    by_cases h2 : n < 0x800
    · rw [if_pos h2] at hb
      simp at hb
      rcases hb with rfl | rfl <;> omega
    · rw [if_neg h2] at hb
      by_cases h3 : n < 0x10000
      · rw [if_pos h3] at hb
        simp at hb
        rcases hb with rfl | rfl | rfl <;> omega
      · rw [if_neg h3] at hb
        simp at hb
        rcases hb with rfl | rfl | rfl | rfl <;> omega

theorem utf8Bytes_lt (s : String) : ∀ b ∈ utf8Bytes s, b < 256 := by
  unfold utf8Bytes
  induction s.data with
  | nil => intro b hb; simp at hb
  | cons c cs ih =>
    intro b hb
    rw [List.foldr_cons] at hb
    rcases List.mem_append.mp hb with h | h
    · exact utf8Char_lt c.toNat (char_toNat_lt c) b h
    · exact ih b h

/-! ## Claim theorems -/

/-- C9: the comparison function passed to `sort.Slice` inside
`ListFilesWithExtension` returns the same result as plain lexicographic
string comparison: its regular expression `[0-9] ` only matches a digit
immediately followed by a space, `Atoi` always fails on such a matched
token, so the numeric branch is unreachable and the two comparators are
extensionally equal. -/
theorem comparator_equals_plain_lexicographic (a b : String) :
    cmpLess a b = specLexLt a b :=
  (cmpLess_eq_goStrLt a b).trans (goStrLt_eq_specLexLt a b)

/-- C7: for filename pairs where at least one side has no digit run, or
integer parsing of the extracted run fails for either, the ordering used
by `ListFilesWithExtension` is plain lexicographic comparison of the full
filename strings; sorting `["c-document.pdf","a-document.pdf",
"b-document.pdf"]` yields `["a-document.pdf","b-document.pdf",
"c-document.pdf"]`. -/
theorem no_digit_pairs_order_lexicographically (a b : String)
    (h : specKey a = none ∨ specKey b = none) :
    cmpLess a b = specLexLt a b ∧
      sortFiles ["c-document.pdf", "a-document.pdf", "b-document.pdf"] =
        ["a-document.pdf", "b-document.pdf", "c-document.pdf"] :=
  ⟨(cmpLess_eq_goStrLt a b).trans (goStrLt_eq_specLexLt a b), by decide⟩

theorem no_digit_pairs_order_lexicographically_witness :
    (specKey "c-document.pdf" = none ∨ specKey "a-document.pdf" = none) ∧
      (cmpLess "c-document.pdf" "a-document.pdf" = specLexLt "c-document.pdf" "a-document.pdf" ∧
        sortFiles ["c-document.pdf", "a-document.pdf", "b-document.pdf"] =
          ["a-document.pdf", "b-document.pdf", "c-document.pdf"]) :=
  ⟨Or.inl (by decide),
    no_digit_pairs_order_lexicographically "c-document.pdf" "a-document.pdf" (Or.inl (by decide))⟩

/-- C1 (code bug): on the claim's own example the listing is plain
lexicographic, `["1-document.pdf","12-document.pdf","2-document.pdf"]`,
not the numeric order `["1-document.pdf","2-document.pdf",
"12-document.pdf"]` that the claim, the spec and the repository's own
`TestListFilesWithExtension` expect: the comparator's regular expression
`[0-9] ` requires a space after the digit and its `Atoi` call always
fails on a matched token, so the numeric branch never runs. -/
theorem listing_sorts_lexicographically_not_numerically :
    ListFilesWithExtension
        (fun _ => some [⟨"2-document.pdf", false⟩, ⟨"12-document.pdf", false⟩,
          ⟨"1-document.pdf", false⟩])
        "/test/dir" ".pdf"
      = some ["1-document.pdf", "12-document.pdf", "2-document.pdf"] ∧
    ["1-document.pdf", "12-document.pdf", "2-document.pdf"] ≠
      ["1-document.pdf", "2-document.pdf", "12-document.pdf"] := by
  constructor
  · decide
  · decide

/-- C6: `ListFilesWithExtension` fails exactly when the directory read
fails; on success it returns (a permutation of, namely the sorted form of)
the names of the non-directory entries whose name ends with the extension,
and the empty sequence — not an error — when nothing matches. -/
theorem listing_error_exactly_on_read_failure
    (readDir : String → Option (List DirEntry)) (dir ext : String) :
    (ListFilesWithExtension readDir dir ext = none ↔ readDir dir = none) ∧
    (∀ entries, readDir dir = some entries →
      ∃ l, ListFilesWithExtension readDir dir ext = some l ∧
        l.Perm ((entries.filter fun e => !e.isDir && goHasSuffix e.name ext).map DirEntry.name) ∧
        ((entries.filter fun e => !e.isDir && goHasSuffix e.name ext) = [] → l = [])) := by
  unfold ListFilesWithExtension
  cases hrd : readDir dir with
  | none =>
    refine ⟨by simp, ?_⟩
    intro entries h
    exact Option.noConfusion h
  | some entries =>
    refine ⟨by simp, ?_⟩
    intro entries' h
    injection h with h
    subst h
    refine ⟨_, rfl, sortFiles_perm _, ?_⟩
    intro hempty
    rw [hempty]
    rfl

/-- C2: for every non-empty folder, `joinPDFs` passes the input paths to
the external merge operation in exactly the listing's order, each input
being the folder path joined with the listed filename at the same index,
and the output path is `<storageRoot>/<folder>.pdf`, a sibling of the
folder rather than a file inside it. -/
theorem merge_uses_listing_order_and_sibling_output
    (readDir : String → Option (List DirEntry)) (path folder : String) (files : List String)
    (hlist : ListFilesWithExtension readDir (goJoin [path, folder]) ".pdf" = some files)
    (hne : files ≠ [])
    (hf : SimpleComp folder.data)
    (hp : CleanPathShape path) :
    joinPDFs readDir path folder = Except.ok
      { inputs := files.map fun f => goJoin [goJoin [path, folder], f]
        output := path ++ "/" ++ folder ++ ".pdf" } := by
  cases files with
  | nil => exact absurd rfl hne
  | cons f fs =>
    unfold joinPDFs
    rw [hlist]
    simp only [List.isEmpty_cons, Bool.false_eq_true, if_false]
    rw [output_is_sibling path folder hp hf]

theorem merge_uses_listing_order_and_sibling_output_witness :
    (ListFilesWithExtension (fun _ => some [⟨"1-a.pdf", false⟩]) (goJoin ["/tmp", "f"]) ".pdf"
        = some ["1-a.pdf"]) ∧
    (["1-a.pdf"] ≠ ([] : List String)) ∧
    SimpleComp ("f" : String).data ∧
    CleanPathShape "/tmp" ∧
    joinPDFs (fun _ => some [⟨"1-a.pdf", false⟩]) "/tmp" "f" = Except.ok
      { inputs := ["1-a.pdf"].map fun f => goJoin [goJoin ["/tmp", "f"], f]
        output := "/tmp" ++ "/" ++ "f" ++ ".pdf" } :=
  ⟨by decide, by decide, by decide,
    ⟨true, [['t', 'm', 'p']], by decide, by decide, by decide⟩,
    merge_uses_listing_order_and_sibling_output
      (fun _ => some [⟨"1-a.pdf", false⟩]) "/tmp" "f" ["1-a.pdf"]
      (by decide) (by decide) (by decide)
      ⟨true, [['t', 'm', 'p']], by decide, by decide, by decide⟩⟩

/-- C3: each uploaded file at 1-indexed batch position `i` is stored under
`"<base+i>-<originalName>"` when the segment of its name before the first
`'-'` does not parse as an integer, and under its unchanged original name
when it does, where the base is the count of already-listed `.pdf` entries
in the target folder. -/
theorem upload_assigns_sequence_numbers
    (readDir : String → Option (List DirEntry)) (folderPath : String)
    (incoming : List String) (dest : List String)
    (hdest : ListFilesWithExtension readDir folderPath ".pdf" = some dest) :
    ∃ stored, uploadStoredNames readDir folderPath incoming = some stored ∧
      stored.length = incoming.length ∧
      ∀ i name, incoming.get? i = some name →
        stored.get? i = some (
          if (goAtoi (String.mk (name.data.takeWhile fun c => c ≠ '-'))).isSome
          then name
          else toString (dest.length + (i + 1)) ++ "-" ++ name) := by
  refine ⟨uploadLoop dest.length 0 incoming, ?_, uploadLoop_length incoming dest.length 0, ?_⟩
  · unfold uploadStoredNames
    rw [hdest]
  · intro i name hi
    rw [uploadLoop_get incoming dest.length 0 i, hi, Option.map_some']
    unfold uploadName
    cases hA : goAtoi (String.mk (name.data.takeWhile fun c => c ≠ '-')) with
    | none =>
      simp only [hA, Option.isSome_none, Bool.false_eq_true, if_false]
      have h2 : 0 + i + 1 + dest.length = dest.length + (i + 1) := by omega
      rw [h2]
    | some v =>
      simp only [hA, Option.isSome_some, if_true]

theorem upload_assigns_sequence_numbers_witness :
    (ListFilesWithExtension (fun _ => some [⟨"1-a.pdf", false⟩]) "/tmp/f" ".pdf"
        = some ["1-a.pdf"]) ∧
    ∃ stored, uploadStoredNames (fun _ => some [⟨"1-a.pdf", false⟩]) "/tmp/f"
        ["doc.pdf", "2-x.pdf"] = some stored ∧
      stored.length = (["doc.pdf", "2-x.pdf"] : List String).length ∧
      ∀ i name, (["doc.pdf", "2-x.pdf"] : List String).get? i = some name →
        stored.get? i = some (
          if (goAtoi (String.mk (name.data.takeWhile fun c => c ≠ '-'))).isSome
          then name
          else toString ((["1-a.pdf"] : List String).length + (i + 1)) ++ "-" ++ name) :=
  ⟨by decide, upload_assigns_sequence_numbers (fun _ => some [⟨"1-a.pdf", false⟩]) "/tmp/f"
    ["doc.pdf", "2-x.pdf"] ["1-a.pdf"] (by decide)⟩

/-- C4 (modelled from the spec, `DeleteFilesHandler` being absent from the
sources): a delete request with an empty file list deletes every file in
the folder rather than nothing, and a subsequent listing of the emptied
folder returns the empty sequence. -/
theorem delete_empty_list_deletes_all
    (contents : List String) (readDir : String → Option (List DirEntry)) (dir : String)
    (hafter : readDir dir = some []) :
    DeleteFilesHandler contents [] = Except.ok [] ∧
    ListFilesWithExtension readDir dir ".pdf" = some [] := by
  constructor
  · rfl
  · unfold ListFilesWithExtension
    rw [hafter]
    rfl

theorem delete_empty_list_deletes_all_witness :
    ((fun (_ : String) => some ([] : List DirEntry)) "d" = some []) ∧
    (DeleteFilesHandler ["1-a.pdf", "2-b.pdf"] [] = Except.ok [] ∧
      ListFilesWithExtension (fun _ => some []) "d" ".pdf" = some []) :=
  ⟨rfl, delete_empty_list_deletes_all ["1-a.pdf", "2-b.pdf"] (fun _ => some []) "d" rfl⟩

/-- C5: `joinPDFs` on a folder whose listing is empty fails with the
no-input error and never produces a merge invocation, so no output file is
written on that path. -/
theorem merge_on_empty_listing_fails_without_merge_call
    (readDir : String → Option (List DirEntry)) (path folder : String)
    (h : ListFilesWithExtension readDir (goJoin [path, folder]) ".pdf" = some []) :
    joinPDFs readDir path folder =
        Except.error "no se encontraron archivos PDF en la ruta proporcionada" ∧
      ∀ call : MergeCall, joinPDFs readDir path folder ≠ Except.ok call := by
  have h1 : joinPDFs readDir path folder =
      Except.error "no se encontraron archivos PDF en la ruta proporcionada" := by
    unfold joinPDFs
    rw [h]
    rfl
  refine ⟨h1, fun call hc => ?_⟩
  rw [h1] at hc
  cases hc

theorem merge_on_empty_listing_fails_without_merge_call_witness :
    (ListFilesWithExtension (fun _ => some []) (goJoin ["/tmp", "f"]) ".pdf" = some []) ∧
    (joinPDFs (fun _ => some []) "/tmp" "f" =
        Except.error "no se encontraron archivos PDF en la ruta proporcionada" ∧
      ∀ call : MergeCall, joinPDFs (fun _ => some []) "/tmp" "f" ≠ Except.ok call) :=
  ⟨by decide, merge_on_empty_listing_fails_without_merge_call
    (fun _ => some []) "/tmp" "f" (by decide)⟩

/-- C8: the generated access code is the deterministic reversible Base64
encoding of the concatenation `name+date` (reversibility witnessed by the
decode round trip), it is registered as valid as a side effect so that
validating it afterwards yields true, and validating a string that was
never generated and is not initially present, such as `"garbage"`, yields
false. -/
theorem generate_registers_reversible_base64_code (st : List String) (name date : String) :
    (generateCode st name date).1 = String.mk (base64Encode (utf8Bytes (name ++ date))) ∧
    validateCode (generateCode st name date).2 (generateCode st name date).1 = true ∧
    base64Decode (base64Encode (utf8Bytes (name ++ date))) = some (utf8Bytes (name ++ date)) ∧
    validateCode validCodesInit "garbage" = false := by
  refine ⟨rfl, ?_, base64_roundtrip _ (utf8Bytes_lt _), by decide⟩
  unfold generateCode validateCode
  simp

/-- C10: at process start, before any call to the code-generation
operation, the store already contains the hardcoded string `"alex"`, so
login validation and the authentication middleware both accept it even
though `generate` never produced it. -/
theorem initial_store_accepts_alex :
    validateCode validCodesInit "alex" = true ∧
    authAllowed validCodesInit (some "alex") = true := by
  constructor
  · decide
  · decide

theorem listing_error_exactly_on_read_failure_witness :
    ∃ l, ListFilesWithExtension
        (fun _ => some [⟨"1-document.pdf", false⟩, ⟨"document.txt", false⟩, ⟨"folder", true⟩])
        "/test/dir" ".pdf" = some l ∧
      l.Perm (((([⟨"1-document.pdf", false⟩, ⟨"document.txt", false⟩, ⟨"folder", true⟩] :
          List DirEntry).filter fun e => !e.isDir && goHasSuffix e.name ".pdf")).map DirEntry.name) ∧
      ((([⟨"1-document.pdf", false⟩, ⟨"document.txt", false⟩, ⟨"folder", true⟩] :
          List DirEntry).filter fun e => !e.isDir && goHasSuffix e.name ".pdf") = [] → l = []) :=
  (listing_error_exactly_on_read_failure
    (fun _ => some [⟨"1-document.pdf", false⟩, ⟨"document.txt", false⟩, ⟨"folder", true⟩])
    "/test/dir" ".pdf").2 _ rfl

end JoinPdf
